import Mathlib

/-!
Verification development for the buddy-blocks content-addressed block store.

The repository ships HTTP client scripts (PUT/GET/DELETE of byte blocks keyed
by their SHA-256 digest); the server core they exercise is specified but not
present in the sources, so the Block Store, the HTTP endpoint layer and the
incremental Hashing Pipeline are modelled here from the specification, while
the client helper `push_block` is embedded from
`src/tests/test_basic_operations.py`.  Bytes are `Nat` values below 256,
machine words are `Nat` values reduced modulo `2 ^ 32`.
-/

namespace BuddyBlocks

/-- A byte sequence: each element is a `Nat` below 256. -/
abbrev Bytes := List Nat

/-- Reduce a natural number to a 32-bit machine word. -/
def w32 (n : Nat) : Nat := n % 4294967296

/-- Right rotation of a 32-bit word by `n` positions. -/
def rotr (n x : Nat) : Nat := w32 ((x >>> n) ||| (x <<< (32 - n)))

/-- SHA-256 choice function Ch(x, y, z). -/
def ch (x y z : Nat) : Nat := (x &&& y) ^^^ ((4294967295 ^^^ x) &&& z)

/-- SHA-256 majority function Maj(x, y, z). -/
def maj (x y z : Nat) : Nat := (x &&& y) ^^^ (x &&& z) ^^^ (y &&& z)

/-- SHA-256 big sigma 0. -/
def bsig0 (x : Nat) : Nat := rotr 2 x ^^^ rotr 13 x ^^^ rotr 22 x

/-- SHA-256 big sigma 1. -/
def bsig1 (x : Nat) : Nat := rotr 6 x ^^^ rotr 11 x ^^^ rotr 25 x

/-- SHA-256 small sigma 0. -/
def ssig0 (x : Nat) : Nat := rotr 7 x ^^^ rotr 18 x ^^^ (x >>> 3)

/-- SHA-256 small sigma 1. -/
def ssig1 (x : Nat) : Nat := rotr 17 x ^^^ rotr 19 x ^^^ (x >>> 10)

/-- The eight 32-bit working registers of the SHA-256 compression function. -/
structure Hash8 where
  a : Nat
  b : Nat
  c : Nat
  d : Nat
  e : Nat
  f : Nat
  g : Nat
  h : Nat
deriving DecidableEq

/-- SHA-256 initial hash value (FIPS 180-4, section 5.3.3). -/
def IV : Hash8 :=
  ⟨1779033703, 3144134277, 1013904242, 2773480762,
   1359893119, 2600822924, 528734635, 1541459225⟩

/-- SHA-256 round constants K (FIPS 180-4, section 4.2.2). -/
def K : List Nat :=
  [   1116352408, 1899447441, 3049323471, 3921009573,
   961987163, 1508970993, 2453635748, 2870763221,
   3624381080, 310598401, 607225278, 1426881987,
   1925078388, 2162078206, 2614888103, 3248222580,
   3835390401, 4022224774, 264347078, 604807628,
   770255983, 1249150122, 1555081692, 1996064986,
   2554220882, 2821834349, 2952996808, 3210313671,
   3336571891, 3584528711, 113926993, 338241895,
   666307205, 773529912, 1294757372, 1396182291,
   1695183700, 1986661051, 2177026350, 2456956037,
   2730485921, 2820302411, 3259730800, 3345764771,
   3516065817, 3600352804, 4094571909, 275423344,
   430227734, 506948616, 659060556, 883997877,
   958139571, 1322822218, 1537002063, 1747873779,
   1955562222, 2024104815, 2227730452, 2361852424,
   2428436474, 2756734187, 3204031479, 3329325298]

/-- One SHA-256 round: consume round constant `k` and schedule word `w`. -/
def round (s : Hash8) (k w : Nat) : Hash8 :=
  let t1 := w32 (s.h + bsig1 s.e + ch s.e s.f s.g + k + w)
  let t2 := w32 (bsig0 s.a + maj s.a s.b s.c)
  ⟨w32 (t1 + t2), s.a, s.b, s.c, w32 (s.d + t1), s.e, s.f, s.g⟩

/-- Fuel-driven worker for `chunksOf`; the fuel only bounds the recursion
depth, so any fuel at least the list length yields the same chunks. -/
def chunksOfF (n : Nat) : Nat → List Nat → List (List Nat)
  | 0, _ => []
  | _ + 1, [] => []
  | fuel + 1, x :: xs => (x :: xs).take n :: chunksOfF n fuel ((x :: xs).drop n)

/-- Split a list into consecutive chunks of `n` elements (last may be short). -/
def chunksOf (n : Nat) (l : List Nat) : List (List Nat) := chunksOfF n l.length l

/-- Big-endian decoding of a byte group into one machine word. -/
def bytesToWord (bs : Bytes) : Nat := bs.foldl (fun acc x => acc * 256 + x) 0

/-- Whole 64-byte block as sixteen big-endian 32-bit words. -/
def blockWords (blk : Bytes) : List Nat := (chunksOf 4 blk).map bytesToWord

/-- Extend sixteen message-schedule words to sixty-four (FIPS 180-4 6.2.2). -/
def extendSchedule (ws : List Nat) : List Nat :=
  (List.range 48).foldl
    (fun acc _ =>
      let t := acc.length
      acc ++ [w32 (ssig1 (acc.getD (t - 2) 0) + acc.getD (t - 7) 0 +
                   ssig0 (acc.getD (t - 15) 0) + acc.getD (t - 16) 0)])
    ws

/-- Compress one 64-byte block into the running hash state. -/
def compressBlock (s : Hash8) (blk : Bytes) : Hash8 :=
  let ws := extendSchedule (blockWords blk)
  let t := (K.zip ws).foldl (fun st kw => round st kw.1 kw.2) s
  ⟨w32 (s.a + t.a), w32 (s.b + t.b), w32 (s.c + t.c), w32 (s.d + t.d),
   w32 (s.e + t.e), w32 (s.f + t.f), w32 (s.g + t.g), w32 (s.h + t.h)⟩

/-- Big-endian bytes of one 32-bit word. -/
def wordBytes (w : Nat) : Bytes :=
  [w / 16777216 % 256, w / 65536 % 256, w / 256 % 256, w % 256]

/-- The 32 digest bytes of a final hash state. -/
def digestBytes (s : Hash8) : Bytes :=
  wordBytes s.a ++ wordBytes s.b ++ wordBytes s.c ++ wordBytes s.d ++
  wordBytes s.e ++ wordBytes s.f ++ wordBytes s.g ++ wordBytes s.h

/-- Big-endian 8-byte encoding of the 64-bit message bit length. -/
def lenBytes (n : Nat) : Bytes :=
  [n / 72057594037927936 % 256, n / 281474976710656 % 256,
   n / 1099511627776 % 256, n / 4294967296 % 256,
   n / 16777216 % 256, n / 65536 % 256, n / 256 % 256, n % 256]

/-- SHA-256 padding appended after a message of `len` bytes: the byte 0x80,
zeros up to 56 mod 64, then the bit length, big-endian in 8 bytes. -/
def padSuffix (len : Nat) : Bytes :=
  128 :: (List.replicate ((119 - len % 64) % 64) 0 ++ lenBytes (8 * len))

/-- A message with its SHA-256 padding. -/
def padBytes (m : Bytes) : Bytes := m ++ padSuffix m.length

/-- SHA-256 digest of a byte sequence, as 32 bytes. -/
def sha256Bytes (m : Bytes) : Bytes :=
  digestBytes ((chunksOf 64 (padBytes m)).foldl compressBlock IV)

/-- Lowercase hexadecimal digit for a value below 16. -/
def hexDigit (n : Nat) : Char := "0123456789abcdef".toList.getD n '0'

/-- Lowercase hexadecimal rendering of a byte sequence, two digits a byte. -/
def bytesToHexChars (bs : Bytes) : List Char :=
  bs.foldr (fun x acc => hexDigit (x / 16) :: hexDigit (x % 16) :: acc) []

/-- The 64-character lowercase hexadecimal SHA-256 digest of a byte
sequence, as returned in the body of a successful PUT. -/
def sha256Hex (m : Bytes) : String := String.mk (bytesToHexChars (sha256Bytes m))

theorem chunksOfF_congr (n : Nat) (hn : 0 < n) :
    ∀ f1 f2 (l : List Nat), l.length ≤ f1 → l.length ≤ f2 →
      chunksOfF n f1 l = chunksOfF n f2 l := by
  intro f1
  induction f1 with
  | zero =>
    intro f2 l h1 _
    have : l = [] := List.eq_nil_of_length_eq_zero (Nat.le_zero.mp h1)
    subst this
    cases f2 <;> rfl
  | succ f1 ih =>
    intro f2 l h1 h2
    cases l with
    | nil => cases f2 <;> rfl
    | cons x xs =>
      cases f2 with
      | zero => simp at h2
      | succ f2 =>
        simp only [chunksOfF]
        have hd : ((x :: xs).drop n).length ≤ f1 := by
          simp only [List.length_drop, List.length_cons] at *
          omega
        have hd2 : ((x :: xs).drop n).length ≤ f2 := by
          simp only [List.length_drop, List.length_cons] at *
          omega
        rw [ih _ _ hd hd2]

theorem chunksOf_nil (n : Nat) : chunksOf n [] = [] := rfl

theorem chunksOf_cons (n : Nat) (hn : 0 < n) (x : Nat) (xs : List Nat) :
    chunksOf n (x :: xs) =
      (x :: xs).take n :: chunksOf n ((x :: xs).drop n) := by
  show chunksOfF n (x :: xs).length (x :: xs) = _
  simp only [List.length_cons, chunksOfF, chunksOf]
  exact congrArg _ (chunksOfF_congr n hn xs.length ((x :: xs).drop n).length _
    (by simp only [List.length_drop, List.length_cons]; omega) (Nat.le_refl _))

theorem chunksOf_append (n : Nat) (hn : 0 < n) :
    ∀ (q : Nat) (a b : List Nat), a.length = n * q →
      chunksOf n (a ++ b) = chunksOf n a ++ chunksOf n b := by
  intro q
  induction q with
  | zero =>
    intro a b ha
    have : a = [] := List.eq_nil_of_length_eq_zero (by omega)
    subst this
    rw [List.nil_append, chunksOf_nil, List.nil_append]
  | succ q ih =>
    intro a b ha
    have hlen : n ≤ a.length := by
      rw [ha, Nat.mul_succ]
      omega
    cases a with
    | nil => simp at hlen; omega
    | cons x xs =>
      have h1 : (x :: xs) ++ b = x :: (xs ++ b) := rfl
      rw [h1, chunksOf_cons n hn x (xs ++ b), chunksOf_cons n hn x xs]
      have htake : (x :: (xs ++ b)).take n = (x :: xs).take n := by
        rw [show x :: (xs ++ b) = (x :: xs) ++ b from rfl]
        exact List.take_append_of_le_length hlen
      have hdrop : (x :: (xs ++ b)).drop n = (x :: xs).drop n ++ b := by
        rw [show x :: (xs ++ b) = (x :: xs) ++ b from rfl]
        exact List.drop_append_of_le_length hlen
      rw [htake, hdrop, ih ((x :: xs).drop n) b]
      · simp
      · simp only [List.length_drop, ha, Nat.mul_succ]
        omega

set_option maxRecDepth 100000 in
/-- Sanity check against the FIPS 180-4 test vector for the empty message. -/
theorem sha256Hex_nil_vector :
    sha256Hex [] =
      "e3b0c44298fc1c149afbf4c8996fb92427ae41e4649b934ca495991b7852b855" := by
  decide

/-- Lowercase hexadecimal digit test, as required of path segments. -/
def isHexLC (c : Char) : Bool := "0123456789abcdef".toList.contains c

/-- Modelled from the spec: digest validation of the HTTP endpoint layer;
a path segment is a well-formed digest iff it is exactly 64 lowercase
hexadecimal characters. -/
def isValidDigest (p : String) : Bool :=
  (p.toList.length == 64) && p.toList.all isHexLC

theorem wordBytes_lt (w : Nat) : ∀ x ∈ wordBytes w, x < 256 := by
  intro x hx
  simp only [wordBytes, List.mem_cons, List.not_mem_nil, or_false] at hx
  rcases hx with h | h | h | h <;> omega

theorem digestBytes_lt (s : Hash8) : ∀ x ∈ digestBytes s, x < 256 := by
  intro x hx
  simp only [digestBytes, List.mem_append] at hx
  rcases hx with ((((((h | h) | h) | h) | h) | h) | h) | h <;>
    exact wordBytes_lt _ _ h

theorem length_digestBytes (s : Hash8) : (digestBytes s).length = 32 := by
  simp [digestBytes, wordBytes]

theorem hexDigit_isHexLC : ∀ n, n < 16 → isHexLC (hexDigit n) = true := by
  decide

theorem length_bytesToHexChars (bs : Bytes) :
    (bytesToHexChars bs).length = 2 * bs.length := by
  induction bs with
  | nil => rfl
  | cons x xs ih =>
    simp only [bytesToHexChars, List.foldr_cons, List.length_cons] at *
    omega

theorem bytesToHexChars_all (bs : Bytes) (hb : ∀ x ∈ bs, x < 256) :
    (bytesToHexChars bs).all isHexLC = true := by
  induction bs with
  | nil => rfl
  | cons x xs ih =>
    have hx : x < 256 := hb x (List.mem_cons_self x xs)
    simp only [bytesToHexChars, List.foldr_cons, List.all_cons, Bool.and_eq_true]
    refine ⟨hexDigit_isHexLC _ (by omega), hexDigit_isHexLC _ (by omega), ?_⟩
    exact ih fun y hy => hb y (List.mem_cons_of_mem x hy)

theorem length_sha256Bytes (m : Bytes) : (sha256Bytes m).length = 32 :=
  length_digestBytes _

theorem sha256Bytes_lt (m : Bytes) : ∀ x ∈ sha256Bytes m, x < 256 :=
  digestBytes_lt _

/-- The digest string returned for any PUT body is a well-formed 64-character
lowercase hexadecimal digest. -/
theorem isValidDigest_sha256Hex (m : Bytes) :
    isValidDigest (sha256Hex m) = true := by
  have htl : (sha256Hex m).toList = bytesToHexChars (sha256Bytes m) := rfl
  simp only [isValidDigest, htl, Bool.and_eq_true, beq_iff_eq]
  constructor
  · rw [length_bytesToHexChars, length_sha256Bytes]
  · exact bytesToHexChars_all _ (sha256Bytes_lt m)

/-! ### The Block Store and the HTTP endpoint layer

Modelled from the spec: the server implementation is absent from the
repository, so `lookupBlock`, `publishBlock`, `putBlock`, `handlePut`,
`handleGet` and `handleDelete` follow sections 4.1 and 4.4 of the
specification: a persistent digest-to-content mapping with atomic
rename-style publish (a safe no-op when the digest already exists),
content-determined keys, digest validation and the 200/400/404/413 status
discipline. -/

/-- The digest-to-content mapping of the Block Store, keyed by the
64-character hexadecimal digest. -/
abbrev Store := List (String × Bytes)

/-- Deployment configuration: the maximum accepted block size in bytes. -/
structure Config where
  maxSize : Nat

/-- Modelled from the spec: look a digest up in the store. -/
def lookupBlock : Store → String → Option Bytes
  | [], _ => none
  | e :: t, d => if e.1 = d then some e.2 else lookupBlock t d

/-- Modelled from the spec: atomic publish of content under its digest; if an
object already exists at that digest the publish is a safe no-op and the
existing object is retained. -/
def publishBlock (s : Store) (d : String) (b : Bytes) : Store :=
  match lookupBlock s d with
  | some _ => s
  | none => (d, b) :: s

/-- Modelled from the spec: `put` of the Block Store — compute the digest of
the candidate bytes, enforce the configured maximum size, and atomically
publish under the digest-derived key.  Returns the HTTP status, the response
body (the digest on success) and the new store. -/
def putBlock (cfg : Config) (s : Store) (b : Bytes) : (Nat × String) × Store :=
  if b.length ≤ cfg.maxSize then
    ((200, sha256Hex b), publishBlock s (sha256Hex b) b)
  else
    ((413, ""), s)

/-- Modelled from the spec: the PUT endpoint; the request path is ignored
entirely — only the content determines the storage key. -/
def handlePut (cfg : Config) (s : Store) (_p : String) (b : Bytes) :
    (Nat × String) × Store :=
  putBlock cfg s b

/-- Modelled from the spec: the GET endpoint — validate the digest syntax,
then look the block up; 400 on a malformed digest, 404 on an absent one,
otherwise 200 with the exact stored bytes. -/
def handleGet (s : Store) (p : String) : Nat × Option Bytes :=
  if isValidDigest p then
    match lookupBlock s p with
    | some b => (200, some b)
    | none => (404, none)
  else
    (400, none)

/-- Modelled from the spec: the DELETE endpoint — validate the digest syntax,
then remove the mapping and its bytes; 400 on a malformed digest, 404 when
nothing was removed, 200 when the block existed and was removed. -/
def handleDelete (s : Store) (p : String) : Nat × Store :=
  if isValidDigest p then
    if (lookupBlock s p).isSome then
      (200, s.filter (fun e => e.1 != p))
    else
      (404, s)
  else
    (400, s)

/-- The Content-Length of a GET response body. -/
def contentLength : Option Bytes → Nat
  | some b => b.length
  | none => 0

/-- Number of stored objects under a given digest. -/
def countDigest (s : Store) (d : String) : Nat :=
  (s.filter (fun e => e.1 == d)).length

/-- Store invariant of the data model: digests are pairwise distinct (at most
one stored object per digest) and every stored object hashes to exactly the
digest it is filed under. -/
def StoreInv (s : Store) : Prop :=
  (s.map Prod.fst).Nodup ∧ ∀ e ∈ s, e.1 = sha256Hex e.2

/-- Modelled from the spec: the reachable states of the Block Store — the
empty store at startup, then closure under the PUT and DELETE endpoints (GET
does not mutate the store, and an aborted or failed PUT publishes nothing,
leaving the store unchanged). -/
inductive Reachable : Store → Prop
  | init : Reachable []
  | put (cfg : Config) (p : String) (b : Bytes) {s : Store} :
      Reachable s → Reachable (handlePut cfg s p b).2
  | del (p : String) {s : Store} :
      Reachable s → Reachable (handleDelete s p).2

theorem lookupBlock_mem {s : Store} {d : String} {c : Bytes}
    (h : lookupBlock s d = some c) : (d, c) ∈ s := by
  induction s with
  | nil => simp [lookupBlock] at h
  | cons e t ih =>
    simp only [lookupBlock] at h
    by_cases he : e.1 = d
    · rw [if_pos he] at h
      refine List.mem_cons.mpr (Or.inl ?_)
      cases e
      cases he
      cases Option.some.inj h
      rfl
    · rw [if_neg he] at h
      exact List.mem_cons_of_mem e (ih h)

theorem lookupBlock_eq_none {s : Store} {d : String} :
    lookupBlock s d = none ↔ d ∉ s.map Prod.fst := by
  induction s with
  | nil => simp [lookupBlock]
  | cons e t ih =>
    simp only [lookupBlock, List.map_cons, List.mem_cons]
    by_cases he : e.1 = d
    · simp [he]
    · rw [if_neg he, ih]
      constructor
      · intro hn hm
        rcases hm with h1 | h2
        · exact he h1.symm
        · exact hn h2
      · intro hn hm
        exact hn (Or.inr hm)

theorem lookupBlock_filter_ne (s : Store) (d : String) :
    lookupBlock (s.filter (fun e => e.1 != d)) d = none := by
  induction s with
  | nil => rfl
  | cons e t ih =>
    by_cases he : e.1 = d
    · simp [List.filter_cons, he, ih]
    · simp [List.filter_cons, he, lookupBlock, ih]

theorem countDigest_eq_zero {s : Store} {d : String}
    (h : d ∉ s.map Prod.fst) : countDigest s d = 0 := by
  induction s with
  | nil => rfl
  | cons e t ih =>
    simp only [List.map_cons, List.mem_cons] at h
    push_neg at h
    have hne : (e.1 == d) = false := by
      refine beq_eq_false_iff_ne.mpr fun hh => h.1 hh.symm
    have h0 := ih h.2
    unfold countDigest at h0 ⊢
    simp [List.filter_cons, hne, h0]

theorem countDigest_eq_one {s : Store} {d : String} {c : Bytes}
    (hnd : (s.map Prod.fst).Nodup) (h : lookupBlock s d = some c) :
    countDigest s d = 1 := by
  induction s with
  | nil => simp [lookupBlock] at h
  | cons e t ih =>
    simp only [List.map_cons, List.nodup_cons] at hnd
    simp only [lookupBlock] at h
    by_cases he : e.1 = d
    · have hdm : d ∉ t.map Prod.fst := by
        rw [← he]
        exact hnd.1
      have h0 := countDigest_eq_zero hdm
      have heq : (e.1 == d) = true := beq_iff_eq.mpr he
      unfold countDigest at h0 ⊢
      simp [List.filter_cons, heq, h0]
    · rw [if_neg he] at h
      have h1 := ih hnd.2 h
      have hne : (e.1 == d) = false := beq_eq_false_iff_ne.mpr he
      unfold countDigest at h1 ⊢
      simp [List.filter_cons, hne, h1]

theorem lookupBlock_publish_self {s : Store} {d : String} {b : Bytes}
    (h : ∀ c, lookupBlock s d = some c → c = b) :
    lookupBlock (publishBlock s d b) d = some b := by
  unfold publishBlock
  cases hl : lookupBlock s d with
  | none => simp [lookupBlock]
  | some c => rw [h c hl] at hl; exact hl

theorem countDigest_publish {s : Store} {d : String} (b : Bytes)
    (hnd : (s.map Prod.fst).Nodup) :
    countDigest (publishBlock s d b) d = 1 := by
  unfold publishBlock
  cases hl : lookupBlock s d with
  | none =>
    have hnm : d ∉ s.map Prod.fst := lookupBlock_eq_none.mp hl
    have h0 := countDigest_eq_zero hnm
    unfold countDigest at h0 ⊢
    simp [List.filter_cons, h0]
  | some c => exact countDigest_eq_one hnd hl

theorem publishBlock_of_some {s : Store} {d : String} {b c : Bytes}
    (h : lookupBlock s d = some c) : publishBlock s d b = s := by
  unfold publishBlock
  rw [h]

theorem storeInv_publish {s : Store} (b : Bytes) (hs : StoreInv s) :
    StoreInv (publishBlock s (sha256Hex b) b) := by
  unfold publishBlock
  cases hl : lookupBlock s (sha256Hex b) with
  | some c => exact hs
  | none =>
    refine ⟨?_, ?_⟩
    · simp only [List.map_cons, List.nodup_cons]
      exact ⟨lookupBlock_eq_none.mp hl, hs.1⟩
    · intro e he
      rcases List.mem_cons.mp he with h | h
      · rw [h]
      · exact hs.2 e h

theorem storeInv_filter (s : Store) (p : String × Bytes → Bool)
    (hs : StoreInv s) : StoreInv (s.filter p) :=
  ⟨(List.Sublist.map Prod.fst (List.filter_sublist s)).nodup hs.1,
   fun e he => hs.2 e (List.mem_of_mem_filter he)⟩

theorem storeInv_handlePut (cfg : Config) (s : Store) (p : String) (b : Bytes)
    (hs : StoreInv s) : StoreInv (handlePut cfg s p b).2 := by
  unfold handlePut putBlock
  by_cases hsz : b.length ≤ cfg.maxSize
  · simpa [hsz] using storeInv_publish b hs
  · simpa [hsz] using hs

theorem storeInv_handleDelete (s : Store) (p : String) (hs : StoreInv s) :
    StoreInv (handleDelete s p).2 := by
  unfold handleDelete
  by_cases hv : isValidDigest p
  · by_cases he : (lookupBlock s p).isSome
    · simpa [hv, he] using storeInv_filter s _ hs
    · simpa [hv, he] using hs
  · simpa [hv] using hs

theorem reachable_storeInv {s : Store} (h : Reachable s) : StoreInv s := by
  induction h with
  | init => exact ⟨List.nodup_nil, by simp⟩
  | put cfg p b _ ih => exact storeInv_handlePut cfg _ p b ih
  | del p _ ih => exact storeInv_handleDelete _ p ih

theorem lookupBlock_publish_isSome (s : Store) (d : String) (b : Bytes) :
    ∃ c, lookupBlock (publishBlock s d b) d = some c := by
  unfold publishBlock
  cases hl : lookupBlock s d with
  | none => exact ⟨b, by simp [lookupBlock]⟩
  | some c => exact ⟨c, hl⟩

/-- Modelled from the spec: `n` concurrent PUTs of the same body, linearized
at the atomic publish point — each writer stages into its own temporary file
(no shared state) and the publishes serialize at the rename, so any
interleaving is a sequence of `handlePut` steps. -/
def putN (cfg : Config) (p : String) (b : Bytes) :
    Nat → Store → List (Nat × String) × Store
  | 0, s => ([], s)
  | n + 1, s =>
    let r := handlePut cfg s p b
    let rest := putN cfg p b n r.2
    (r.1 :: rest.1, rest.2)

theorem putN_stable (cfg : Config) (p : String) (b : Bytes) (n : Nat)
    {s : Store} {c : Bytes} (hsz : b.length ≤ cfg.maxSize)
    (hl : lookupBlock s (sha256Hex b) = some c) :
    putN cfg p b n s = (List.replicate n (200, sha256Hex b), s) := by
  induction n with
  | zero => rfl
  | succ n ih =>
    unfold putN handlePut putBlock
    simp only [if_pos hsz, publishBlock_of_some hl, ih, List.replicate_succ]

/-- C1: for every byte sequence from empty up to the configured maximum
size, the PUT endpoint answers status 200 with exactly the 64-character
lowercase hexadecimal SHA-256 digest of the body. -/
theorem put_returns_sha256_digest (cfg : Config) (s : Store) (p : String)
    (b : Bytes) (hsz : b.length ≤ cfg.maxSize) :
    (handlePut cfg s p b).1 = (200, sha256Hex b) ∧
      isValidDigest (sha256Hex b) = true := by
  unfold handlePut putBlock
  simp [hsz, isValidDigest_sha256Hex b]

theorem put_returns_sha256_digest_witness :
    ([] : Bytes).length ≤ (Config.mk 1024).maxSize ∧
      ((handlePut ⟨1024⟩ [] "/" []).1 = (200, sha256Hex []) ∧
        isValidDigest (sha256Hex []) = true) :=
  ⟨by decide, put_returns_sha256_digest ⟨1024⟩ [] "/" [] (by decide)⟩

/-- C2: round-trip — after a successful PUT of a body within the size limit,
GET of the returned digest answers 200 with bytes identical to the body and
a Content-Length equal to the stored size.  The hypothesis `hnc` is the
content-addressing reading of the spec: the store holds no object under the
body's digest with different content. -/
theorem get_after_put (cfg : Config) (s : Store) (p : String) (b : Bytes)
    (hsz : b.length ≤ cfg.maxSize)
    (hnc : ∀ c, lookupBlock s (sha256Hex b) = some c → c = b) :
    handleGet (handlePut cfg s p b).2 (sha256Hex b) = (200, some b) ∧
      contentLength (handleGet (handlePut cfg s p b).2 (sha256Hex b)).2 =
        b.length := by
  unfold handlePut putBlock
  simp only [if_pos hsz]
  have hl := lookupBlock_publish_self hnc
  unfold handleGet
  rw [if_pos (isValidDigest_sha256Hex b), hl]
  exact ⟨rfl, rfl⟩

theorem get_after_put_witness :
    (([0] : Bytes).length ≤ (Config.mk 8).maxSize ∧
        ∀ c, lookupBlock [] (sha256Hex [0]) = some c → c = [0]) ∧
      handleGet (handlePut ⟨8⟩ [] "/" [0]).2 (sha256Hex [0]) =
        (200, some [0]) :=
  ⟨⟨by decide, fun c hc => by simp [lookupBlock] at hc⟩,
   (get_after_put ⟨8⟩ [] "/" [0] (by decide)
      (fun c hc => by simp [lookupBlock] at hc)).1⟩

/-- C3: a GET issued after a successful DELETE of the same digest answers
404 with no body — never the old bytes and never a truncated result. -/
theorem get_after_delete (s : Store) (d : String)
    (hdel : (handleDelete s d).1 = 200) :
    handleGet (handleDelete s d).2 d = (404, none) := by
  unfold handleDelete at hdel ⊢
  by_cases hv : isValidDigest d = true
  · by_cases he : (lookupBlock s d).isSome = true
    · simp only [if_pos hv, if_pos he]
      unfold handleGet
      rw [if_pos hv, lookupBlock_filter_ne s d]
    · simp [hv, he] at hdel
  · simp [hv] at hdel

/-- A well-formed 64-character digest used as a concrete test key. -/
def digestA : String :=
  "aaaaaaaaaaaaaaaaaaaaaaaaaaaaaaaaaaaaaaaaaaaaaaaaaaaaaaaaaaaaaaaa"

theorem get_after_delete_witness :
    (handleDelete [(digestA, [1, 2])] digestA).1 = 200 ∧
      handleGet (handleDelete [(digestA, [1, 2])] digestA).2 digestA =
        (404, none) :=
  ⟨by decide, get_after_delete [(digestA, [1, 2])] digestA (by decide)⟩

/-- C4: a GET or DELETE whose path segment is not exactly 64 lowercase
hexadecimal characters answers 400 and leaves the store unchanged; a DELETE
of a well-formed but absent digest answers 404, not success; and a second
DELETE of the same digest straight after a successful first one answers
404. -/
theorem digest_validation_and_absent (s : Store) (p d : String) :
    (isValidDigest p = false →
        handleGet s p = (400, none) ∧ handleDelete s p = (400, s)) ∧
      (isValidDigest d = true → lookupBlock s d = none →
        (handleDelete s d).1 = 404) ∧
      ((handleDelete s d).1 = 200 →
        (handleDelete (handleDelete s d).2 d).1 = 404) := by
  refine ⟨?_, ?_, ?_⟩
  · intro hp
    unfold handleGet handleDelete
    simp [hp]
  · intro hv hl
    unfold handleDelete
    simp [hv, hl]
  · intro h200
    unfold handleDelete at h200 ⊢
    by_cases hv : isValidDigest d = true
    · by_cases he : (lookupBlock s d).isSome = true
      · simp only [if_pos hv, if_pos he]
        rw [lookupBlock_filter_ne s d]
        simp
      · simp [hv, he] at h200
    · simp [hv] at h200

theorem digest_validation_and_absent_witness :
    (isValidDigest "not-a-digest" = false ∧
        handleGet [] "not-a-digest" = (400, none)) ∧
      (isValidDigest digestA = true ∧ lookupBlock [] digestA = none ∧
        (handleDelete [] digestA).1 = 404) ∧
      ((handleDelete [(digestA, [7])] digestA).1 = 200 ∧
        (handleDelete (handleDelete [(digestA, [7])] digestA).2 digestA).1 =
          404) :=
  ⟨⟨by decide,
    ((digest_validation_and_absent [] "not-a-digest" digestA).1
      (by decide)).1⟩,
   ⟨by decide, by decide,
    (digest_validation_and_absent [] "x" digestA).2.1 (by decide) (by decide)⟩,
   ⟨by decide,
    (digest_validation_and_absent [(digestA, [7])] "x" digestA).2.2
      (by decide)⟩⟩

/-- C5: noninterference of the request path on PUT — the same body PUT at
any two paths produces the same status, the same returned digest and the
same resulting store; only the content determines the storage key. -/
theorem put_path_noninterference (cfg : Config) (s : Store) (b : Bytes)
    (p1 p2 : String) : handlePut cfg s p1 b = handlePut cfg s p2 b := rfl

/-- C6: idempotence of PUT — the same body stored twice answers status 200
with the same digest both times, and afterwards exactly one stored object
exists for that digest. -/
theorem put_idempotent (cfg : Config) (s : Store) (p : String) (b : Bytes)
    (hsz : b.length ≤ cfg.maxSize) (hs : StoreInv s) :
    (handlePut cfg s p b).1 = (200, sha256Hex b) ∧
      (handlePut cfg (handlePut cfg s p b).2 p b).1 = (200, sha256Hex b) ∧
      countDigest (handlePut cfg (handlePut cfg s p b).2 p b).2
        (sha256Hex b) = 1 := by
  unfold handlePut putBlock
  simp only [if_pos hsz]
  refine ⟨by trivial, by trivial, ?_⟩
  exact countDigest_publish b (storeInv_publish b hs).1

theorem put_idempotent_witness :
    (([3] : Bytes).length ≤ (Config.mk 16).maxSize ∧ StoreInv []) ∧
      countDigest
        (handlePut ⟨16⟩ (handlePut ⟨16⟩ [] "/" [3]).2 "/" [3]).2
        (sha256Hex [3]) = 1 :=
  ⟨⟨by decide, List.nodup_nil, by simp⟩,
   (put_idempotent ⟨16⟩ [] "/" [3] (by decide)
      ⟨List.nodup_nil, by simp⟩).2.2⟩

/-- C7: at every reachable store state the store invariant holds — each
digest maps to at most one block and every stored block hashes to the digest
it is filed under; a successful GET therefore only ever returns a complete
block whose content hashes to the requested digest, and a failing
(oversized, hence unpublished) PUT leaves the store unchanged. -/
theorem reachable_store_invariant (s : Store) (h : Reachable s) :
    StoreInv s ∧
      (∀ d b, handleGet s d = (200, some b) → d = sha256Hex b) ∧
      (∀ cfg p b, cfg.maxSize < b.length →
        handlePut cfg s p b = ((413, ""), s)) := by
  have hs := reachable_storeInv h
  refine ⟨hs, ?_, ?_⟩
  · intro d b hg
    unfold handleGet at hg
    by_cases hv : isValidDigest d = true
    · rw [if_pos hv] at hg
      cases hl : lookupBlock s d with
      | some c =>
        rw [hl] at hg
        have hcb : c = b := by simpa using hg
        subst hcb
        exact hs.2 (d, c) (lookupBlock_mem hl)
      | none =>
        rw [hl] at hg
        simp at hg
    · rw [if_neg hv] at hg
      simp at hg
  · intro cfg p b hover
    unfold handlePut putBlock
    rw [if_neg (by omega)]

theorem reachable_store_invariant_witness : StoreInv ([] : Store) :=
  (reachable_store_invariant [] Reachable.init).1

/-- C9: any linearization of `n ≥ 1` concurrent PUTs of byte-identical
content (each staging privately and publishing atomically) completes every
call with status 200 and the digest of the content, and leaves exactly one
stored object for that digest. -/
theorem concurrent_put_converges (cfg : Config) (p : String) (b : Bytes)
    (s : Store) (n : Nat) (hn : 1 ≤ n) (hsz : b.length ≤ cfg.maxSize)
    (hs : StoreInv s) :
    (putN cfg p b n s).1 = List.replicate n (200, sha256Hex b) ∧
      countDigest (putN cfg p b n s).2 (sha256Hex b) = 1 := by
  cases n with
  | zero => omega
  | succ n =>
    obtain ⟨c, hc⟩ := lookupBlock_publish_isSome s (sha256Hex b) b
    have hstable := putN_stable cfg p b n hsz hc
    unfold putN handlePut putBlock
    simp only [if_pos hsz, hstable, List.replicate_succ]
    exact ⟨by trivial, countDigest_publish b hs.1⟩

theorem concurrent_put_converges_witness :
    (1 ≤ 2 ∧ ([] : Bytes).length ≤ (Config.mk 4).maxSize ∧
        StoreInv ([] : Store)) ∧
      (putN ⟨4⟩ "/" [] 2 []).1 = List.replicate 2 (200, sha256Hex []) :=
  ⟨⟨by decide, by decide, List.nodup_nil, by simp⟩,
   (concurrent_put_converges ⟨4⟩ "/" [] [] 2 (by omega) (by decide)
      ⟨List.nodup_nil, by simp⟩).1⟩

/-! ### The incremental Hashing Pipeline

Modelled from the spec: the Hashing Pipeline digests the PUT body
incrementally as the chunks arrive — complete 64-byte blocks are compressed
as soon as they are available and at most 63 bytes stay buffered — so the
digest is ready exactly when the transfer completes, without buffering the
entire body.  The claims compare this streaming computation with the
one-shot `sha256Hex`. -/

/-- Streaming state of the Hashing Pipeline: the running compression state,
the below-64-byte tail not yet compressed, and the byte count seen so far. -/
structure PipeState where
  hs : Hash8
  buf : Bytes
  len : Nat

/-- Pipeline state before any body byte has arrived. -/
def pipeInit : PipeState := ⟨IV, [], 0⟩

/-- Feed one transport chunk to the pipeline: compress every complete
64-byte block of buffered plus new bytes, buffer the rest. -/
def pipeUpdate (s : PipeState) (chunk : Bytes) : PipeState :=
  let data := s.buf ++ chunk
  let nb := data.length / 64
  ⟨(chunksOf 64 (data.take (64 * nb))).foldl compressBlock s.hs,
   data.drop (64 * nb), s.len + chunk.length⟩

/-- Finish the pipeline: pad the buffered tail from the total length and
render the digest in lowercase hexadecimal. -/
def pipeFinalize (s : PipeState) : String :=
  String.mk (bytesToHexChars (digestBytes
    ((chunksOf 64 (s.buf ++ padSuffix s.len)).foldl compressBlock s.hs)))

/-- Digest of a PUT body delivered as a given list of transport chunks. -/
def pipelineDigest (chunks : List Bytes) : String :=
  pipeFinalize (chunks.foldl pipeUpdate pipeInit)

/-- The pipeline state reached after absorbing exactly the bytes `m`: all
complete 64-byte blocks compressed, the remainder buffered. -/
def absorbedState (m : Bytes) : PipeState :=
  ⟨(chunksOf 64 (m.take (64 * (m.length / 64)))).foldl compressBlock IV,
   m.drop (64 * (m.length / 64)), m.length⟩

theorem pipeInit_eq : pipeInit = absorbedState [] := rfl

theorem pipeUpdate_absorbed (m c : Bytes) :
    pipeUpdate (absorbedState m) c = absorbedState (m ++ c) := by
  have hk : 64 * (m.length / 64) ≤ m.length := by omega
  have harith : 64 * ((m ++ c).length / 64)
      = 64 * (m.length / 64)
        + 64 * ((m.drop (64 * (m.length / 64)) ++ c).length / 64) := by
    simp only [List.length_append, List.length_drop]
    omega
  have hsplit : (m ++ c).take (64 * ((m ++ c).length / 64))
      = m.take (64 * (m.length / 64))
        ++ (m.drop (64 * (m.length / 64)) ++ c).take
            (64 * ((m.drop (64 * (m.length / 64)) ++ c).length / 64)) := by
    rw [harith, List.take_add, List.take_append_of_le_length hk,
        List.drop_append_of_le_length hk]
  have hdropeq : (m ++ c).drop (64 * ((m ++ c).length / 64))
      = (m.drop (64 * (m.length / 64)) ++ c).drop
          (64 * ((m.drop (64 * (m.length / 64)) ++ c).length / 64)) := by
    rw [harith, ← List.drop_drop, List.drop_append_of_le_length hk]
  have hchunks : chunksOf 64 ((m ++ c).take (64 * ((m ++ c).length / 64)))
      = chunksOf 64 (m.take (64 * (m.length / 64)))
        ++ chunksOf 64 ((m.drop (64 * (m.length / 64)) ++ c).take
            (64 * ((m.drop (64 * (m.length / 64)) ++ c).length / 64))) := by
    rw [hsplit]
    exact chunksOf_append 64 (by omega) (m.length / 64) _ _
      (by rw [List.length_take_of_le hk])
  unfold pipeUpdate absorbedState
  dsimp only
  rw [PipeState.mk.injEq]
  refine ⟨?_, hdropeq.symm, (List.length_append m c).symm⟩
  rw [hchunks, List.foldl_append]

theorem foldl_pipeUpdate (cs : List Bytes) :
    ∀ m : Bytes,
      cs.foldl pipeUpdate (absorbedState m) = absorbedState (m ++ cs.flatten) := by
  induction cs with
  | nil => intro m; simp
  | cons c cs ih =>
    intro m
    simp only [List.foldl_cons, List.flatten_cons, pipeUpdate_absorbed]
    rw [ih (m ++ c), List.append_assoc]

theorem pipeFinalize_absorbed (m : Bytes) :
    pipeFinalize (absorbedState m) = sha256Hex m := by
  have hk : 64 * (m.length / 64) ≤ m.length := by omega
  have hm : m ++ padSuffix m.length
      = m.take (64 * (m.length / 64))
        ++ (m.drop (64 * (m.length / 64)) ++ padSuffix m.length) := by
    rw [← List.append_assoc, List.take_append_drop]
  unfold pipeFinalize absorbedState sha256Hex sha256Bytes padBytes
  dsimp only
  rw [hm]
  conv_rhs =>
    rw [chunksOf_append 64 (by omega) (m.length / 64) _ _
        (by rw [List.length_take_of_le hk]), List.foldl_append]

/-- C8: determinism of the Hashing Pipeline — the digest of a PUT body
depends only on the ordered byte content: two deliveries of the same byte
sequence through any two chunkings (transport framings, network paths)
yield the identical digest, namely the one-shot SHA-256 of the body. -/
theorem pipeline_digest_deterministic (cs1 cs2 : List Bytes)
    (h : cs1.flatten = cs2.flatten) :
    pipelineDigest cs1 = pipelineDigest cs2 ∧
      pipelineDigest cs1 = sha256Hex cs1.flatten := by
  have hbridge : ∀ cs : List Bytes, pipelineDigest cs = sha256Hex cs.flatten := by
    intro cs
    unfold pipelineDigest
    rw [pipeInit_eq, foldl_pipeUpdate cs [], List.nil_append,
        pipeFinalize_absorbed]
  exact ⟨by rw [hbridge, hbridge, h], hbridge cs1⟩

theorem pipeline_digest_deterministic_witness :
    ([[0, 1], [2]] : List Bytes).flatten = ([[0], [1, 2]] : List Bytes).flatten ∧
      pipelineDigest [[0, 1], [2]] = pipelineDigest [[0], [1, 2]] :=
  ⟨by decide,
   (pipeline_digest_deterministic [[0, 1], [2]] [[0], [1, 2]] (by decide)).1⟩

/-! ### The client helper push_block of src/tests/test_basic_operations.py -/

/-- An HTTP response as the requests library hands it to the client: the
numeric status code and the decoded body text. -/
structure PyResponse where
  status_code : Nat
  text : String

/-- The exceptions `push_block` can raise: the `HTTPError` of
`Response.raise_for_status` for a 4xx or 5xx status, and the
`AssertionError` of the digest comparison. -/
inductive ClientError where
  | httpError (status : Nat)
  | assertionError
deriving DecidableEq

/-- Python `str.strip()`: remove leading and trailing whitespace. -/
def pyStrip (s : String) : String :=
  String.mk (((s.toList.dropWhile Char.isWhitespace).reverse.dropWhile
    Char.isWhitespace).reverse)

/-- The helper `push_block` of `src/tests/test_basic_operations.py`, applied
to the response the server sent back for `PUT /` of `data`:
`raise_for_status` raises for a status in 400-599, the whitespace-stripped
response text is compared against the locally computed SHA-256 digest with
an `AssertionError` on mismatch, and only then is the hash returned. -/
def push_block (data : Bytes) (resp : PyResponse) :
    Except ClientError String :=
  if 400 ≤ resp.status_code ∧ resp.status_code < 600 then
    Except.error (ClientError.httpError resp.status_code)
  else
    let hash_value := pyStrip resp.text
    let expected_hash := sha256Hex data
    if hash_value ≠ expected_hash then
      Except.error ClientError.assertionError
    else
      Except.ok hash_value

/-- C10: whenever `push_block data` returns normally, its return value is
exactly the locally computed SHA-256 hex digest of `data` — the server
response is accepted only when, stripped of surrounding whitespace, it
matches that digest. -/
theorem push_block_verifies (data : Bytes) (resp : PyResponse) (h : String)
    (hok : push_block data resp = Except.ok h) : h = sha256Hex data := by
  unfold push_block at hok
  by_cases h4 : 400 ≤ resp.status_code ∧ resp.status_code < 600
  · rw [if_pos h4] at hok
    cases hok
  · rw [if_neg h4] at hok
    dsimp only at hok
    by_cases hne : pyStrip resp.text ≠ sha256Hex data
    · rw [if_pos hne] at hok
      cases hok
    · rw [if_neg hne] at hok
      push_neg at hne
      have h1 := Except.ok.inj hok
      rw [← h1]
      exact hne

set_option maxRecDepth 400000 in
theorem push_block_verifies_witness :
    push_block []
        ⟨200,
         "e3b0c44298fc1c149afbf4c8996fb92427ae41e4649b934ca495991b7852b855"⟩ =
      Except.ok
        "e3b0c44298fc1c149afbf4c8996fb92427ae41e4649b934ca495991b7852b855" ∧
      "e3b0c44298fc1c149afbf4c8996fb92427ae41e4649b934ca495991b7852b855" =
        sha256Hex [] :=
  ⟨rfl,
   push_block_verifies []
     ⟨200,
      "e3b0c44298fc1c149afbf4c8996fb92427ae41e4649b934ca495991b7852b855"⟩
     _ rfl⟩

end BuddyBlocks
